import Mathlib

/-!
Shallow embedding of the expense-dashboard client
(`src/dashboard/src/app/layout.tsx`).

Conventions of the embedding:
* JavaScript numbers are modelled as rationals (`ℚ`); amounts in the
  dashboard are currency values and every operation used on them
  (addition, division by a count, rounding to two decimals) is exact
  on `ℚ`.
* JavaScript strings are Lean `String`s; `String.prototype.toLowerCase`
  is modelled by `jsToLower` (character-wise lowering),
  `String.prototype.trim` by `jsTrim` (whitespace stripped from both
  ends), and `String.prototype.includes` by an explicit substring scan
  (`containsSub` below).
* The helper `getMonthKey` lives in `lib/format`, which is not part of
  the sources; every statement that involves it is proved for an
  arbitrary function `gmk : String → String`.
* `Number.parseFloat` is a JavaScript builtin; it is modelled by an
  arbitrary function `parseAmount : String → Option ℚ`, `none` playing
  the role of `NaN`.
* JavaScript plain objects used as records (`Record<string, number>`)
  are modelled as association lists in key-insertion order, matching
  the enumeration order of `Object.entries`.
-/

/-- An expense record, with the fields of the `Expense` type used by the
dashboard (`category` and `paymentMethod` are string unions in the
source). -/
structure Expense where
  id : String
  description : String
  amount : ℚ
  category : String
  paymentMethod : String
  date : String
  notes : Option String
deriving DecidableEq, Repr

/-- The dashboard's `CategoryFilter = Expense["category"] | "All"` union. -/
inductive CategoryFilter where
  | all
  | category (c : String)
deriving DecidableEq, Repr

/-- `needle.isPrefixOf hay` for character lists: models matching a
candidate occurrence in `String.prototype.includes`. -/
def leadsWith : List Char → List Char → Bool
  | [], _ => true
  | _ :: _, [] => false
  | a :: as, b :: bs => a == b && leadsWith as bs

/-- Substring scan over character lists: `containsSub n h` is true iff
`n` occurs contiguously in `h`. -/
def containsSub (needle : List Char) : List Char → Bool
  | [] => needle.isEmpty
  | c :: rest => leadsWith needle (c :: rest) || containsSub needle rest

/-- Model of `s.includes(t)` on JavaScript strings. -/
def strIncludes (s t : String) : Bool :=
  containsSub t.data s.data

/-- Model of `s.toLowerCase()`: character-wise lowering. -/
def jsToLower (s : String) : String :=
  ⟨s.data.map Char.toLower⟩

/-- Model of `s.trim()`: whitespace stripped from both ends. -/
def jsTrim (s : String) : String :=
  ⟨((s.data.dropWhile Char.isWhitespace).reverse.dropWhile
      Char.isWhitespace).reverse⟩

/-- The filter predicate of `filteredExpenses` in `layout.tsx`
(lines 83–92), as a boolean function on one expense. -/
def matchesFilters (gmk : String → String) (categoryFilter : CategoryFilter)
    (monthFilter : String) (searchTerm : String) (expense : Expense) : Bool :=
  let matchesCategory :=
    categoryFilter == CategoryFilter.all ||
      CategoryFilter.category expense.category == categoryFilter
  let matchesMonth :=
    monthFilter == "all" || gmk expense.date == monthFilter
  let matchesSearch :=
    searchTerm == "" ||
      strIncludes (jsToLower expense.description) (jsToLower searchTerm)
  matchesCategory && matchesMonth && matchesSearch

/-- `filteredExpenses` from `layout.tsx` (lines 82–93):
`expenses.filter(...)` with the three conditions above. -/
def filteredExpenses (gmk : String → String) (categoryFilter : CategoryFilter)
    (monthFilter : String) (searchTerm : String)
    (expenses : List Expense) : List Expense :=
  expenses.filter (matchesFilters gmk categoryFilter monthFilter searchTerm)

/-- `n` occurs contiguously inside `h`: the specification's notion
of "contains as a substring". -/
def SubstringOf (n h : List Char) : Prop :=
  ∃ s t, h = s ++ n ++ t

/-- The specification's description of which expenses pass the filters:
category matches (or the filter is "All"), month key matches (or the
filter is "all"), and the lower-cased description contains the
lower-cased search term (or the term is empty). -/
def SpecMatch (gmk : String → String) (categoryFilter : CategoryFilter)
    (monthFilter : String) (searchTerm : String) (e : Expense) : Prop :=
  (categoryFilter = CategoryFilter.all ∨
      categoryFilter = CategoryFilter.category e.category) ∧
  (monthFilter = "all" ∨ gmk e.date = monthFilter) ∧
  (searchTerm = "" ∨
      SubstringOf (jsToLower searchTerm).data (jsToLower e.description).data)

theorem leadsWith_iff (n h : List Char) :
    leadsWith n h = true ↔ ∃ t, h = n ++ t := by
  induction n generalizing h with
  | nil => simp [leadsWith]
  | cons a as ih =>
    cases h with
    | nil => simp [leadsWith]
    | cons b bs =>
      simp only [leadsWith, Bool.and_eq_true, beq_iff_eq, ih]
      constructor
      · rintro ⟨rfl, t, rfl⟩
        exact ⟨t, rfl⟩
      · rintro ⟨t, ht⟩
        simp only [List.cons_append, List.cons.injEq] at ht
        exact ⟨ht.1.symm, t, ht.2⟩

theorem containsSub_iff (n h : List Char) :
    containsSub n h = true ↔ SubstringOf n h := by
  induction h with
  | nil =>
    simp only [containsSub, List.isEmpty_iff, SubstringOf]
    constructor
    · rintro rfl
      exact ⟨[], [], rfl⟩
    · rintro ⟨s, t, ht⟩
      have := List.append_eq_nil.mp ht.symm
      have := List.append_eq_nil.mp this.1
      exact this.2
  | cons c rest ih =>
    simp only [containsSub, Bool.or_eq_true, leadsWith_iff, ih, SubstringOf]
    constructor
    · rintro (⟨t, ht⟩ | ⟨s, t, ht⟩)
      · exact ⟨[], t, by simp [ht]⟩
      · exact ⟨c :: s, t, by simp [ht]⟩
    · rintro ⟨s, t, ht⟩
      cases s with
      | nil =>
        left
        exact ⟨t, by simpa using ht⟩
      | cons x xs =>
        right
        simp only [List.cons_append, List.cons.injEq] at ht
        exact ⟨xs, t, ht.2⟩

instance (n h : List Char) : Decidable (SubstringOf n h) :=
  decidable_of_iff (containsSub n h = true) (containsSub_iff n h)

instance (gmk : String → String) (cf : CategoryFilter) (mf st : String)
    (e : Expense) : Decidable (SpecMatch gmk cf mf st e) := by
  unfold SpecMatch
  infer_instance

theorem matchesFilters_iff (gmk : String → String) (cf : CategoryFilter)
    (mf st : String) (e : Expense) :
    matchesFilters gmk cf mf st e = true ↔ SpecMatch gmk cf mf st e := by
  simp only [matchesFilters, SpecMatch, Bool.and_eq_true, Bool.or_eq_true,
    beq_iff_eq, strIncludes, containsSub_iff]
  constructor
  · rintro ⟨⟨hc, hm⟩, hs⟩
    refine ⟨?_, ?_, ?_⟩
    · rcases hc with hc | hc
      · exact Or.inl hc
      · exact Or.inr hc.symm
    · exact hm
    · exact hs
  · rintro ⟨hc, hm, hs⟩
    refine ⟨⟨?_, hm⟩, hs⟩
    rcases hc with hc | hc
    · exact Or.inl hc
    · exact Or.inr hc.symm

/-- C1: for every list of expenses and every choice of filters, the
filtered list is exactly the sublist of expenses (in original order)
satisfying the specification's conjunction: category filter is "All" or
equals the expense's category, month filter is "all" or equals the
month key of the date, and the search term is empty or its lower-casing
occurs as a substring of the lower-cased description. -/
theorem filteredExpenses_spec (gmk : String → String) (cf : CategoryFilter)
    (mf st : String) (es : List Expense) :
    filteredExpenses gmk cf mf st es =
      es.filter (fun e => decide (SpecMatch gmk cf mf st e)) ∧
    List.Sublist (filteredExpenses gmk cf mf st es) es ∧
    ∀ e, e ∈ filteredExpenses gmk cf mf st es ↔
      e ∈ es ∧ SpecMatch gmk cf mf st e := by
  have hcongr : filteredExpenses gmk cf mf st es =
      es.filter (fun e => decide (SpecMatch gmk cf mf st e)) := by
    refine List.filter_congr ?_
    intro e _
    rw [Bool.eq_iff_iff, decide_eq_true_eq]
    exact matchesFilters_iff gmk cf mf st e
  refine ⟨hcongr, List.filter_sublist es, ?_⟩
  intro e
  rw [hcongr]
  simp [List.mem_filter]

/-- Lookup in a JavaScript object modelled as an association list
(`acc[key]`, `undefined` as `none`). -/
def objGet : List (String × ℚ) → String → Option ℚ
  | [], _ => none
  | p :: ps, k => if p.1 = k then some p.2 else objGet ps k

/-- Assignment `acc[key] = v` on a JavaScript object: an existing key
keeps its position, a new key is appended, matching the enumeration
order of `Object.entries`. -/
def objSet : List (String × ℚ) → String → ℚ → List (String × ℚ)
  | [], k, v => [(k, v)]
  | p :: ps, k, v => if p.1 = k then (k, v) :: ps else p :: objSet ps k v

/-- Insert an entry into a list sorted by non-increasing value, before
the first strictly smaller value.  Processing the entries left to right
with this insertion reproduces the (stable) result of
`entries.sort(([, a], [, b]) => b - a)`. -/
def insertDesc (x : String × ℚ) : List (String × ℚ) → List (String × ℚ)
  | [] => [x]
  | y :: ys => if y.2 < x.2 then x :: y :: ys else y :: insertDesc x ys

/-- Stable sort by descending value, the observable behaviour of
`Object.entries(categories).sort(([, a], [, b]) => b - a)`. -/
def sortByValueDesc (l : List (String × ℚ)) : List (String × ℚ) :=
  l.foldl (fun acc x => insertDesc x acc) []

/-- The result record of the `totals` memo in `layout.tsx`
(lines 95–125). -/
structure Totals where
  total : ℚ
  topCategory : Option (String × ℚ)
  average : ℚ
  categories : List (String × ℚ)
deriving DecidableEq, Repr

/-- `totals` from `layout.tsx` (lines 95–125): total by `reduce` over
amounts, per-category record by `reduce` with `acc[c] = (acc[c] ?? 0) + a`,
top category as the head of the entries sorted by descending value
(`?? null` as `Option`), and average guarded against an empty list. -/
def totals (filtered : List Expense) : Totals :=
  let total := filtered.foldl (fun sum expense => sum + expense.amount) 0
  let categories := filtered.foldl
    (fun acc expense =>
      objSet acc expense.category
        ((objGet acc expense.category).getD 0 + expense.amount))
    []
  let topCategory := (sortByValueDesc categories).head?
  let average := if filtered.length = 0 then 0 else total / (filtered.length : ℚ)
  { total := total, topCategory := topCategory, average := average,
    categories := categories }

/-- `recentExpenses` from `layout.tsx` (line 127):
`filteredExpenses.slice(0, 6)`. -/
def recentExpenses (filtered : List Expense) : List Expense :=
  filtered.take 6

/-- Sum of the amounts of the expenses of category `c` in `l`: the
specification's group-by value. -/
def catSum (l : List Expense) (c : String) : ℚ :=
  ((l.filter (fun e => e.category = c)).map (fun e => e.amount)).sum

theorem foldl_add_amount (l : List Expense) (a : ℚ) :
    l.foldl (fun sum expense => sum + expense.amount) a =
      a + (l.map (fun e => e.amount)).sum := by
  induction l generalizing a with
  | nil => simp
  | cons e rest ih =>
    simp only [List.foldl_cons, List.map_cons, List.sum_cons, ih]
    ring

theorem totals_total_eq (filtered : List Expense) :
    (totals filtered).total = (filtered.map (fun e => e.amount)).sum := by
  show filtered.foldl (fun sum expense => sum + expense.amount) 0 = _
  rw [foldl_add_amount]
  ring

/-- C2: for every list of expenses and every filter state, the monthly
total equals the sum of the amounts of the filtered expenses, and it is
0 when the filtered list is empty. -/
theorem totals_total_spec (gmk : String → String) (cf : CategoryFilter)
    (mf st : String) (es : List Expense) :
    (totals (filteredExpenses gmk cf mf st es)).total =
      ((filteredExpenses gmk cf mf st es).map (fun e => e.amount)).sum ∧
    (filteredExpenses gmk cf mf st es = [] →
      (totals (filteredExpenses gmk cf mf st es)).total = 0) := by
  refine ⟨totals_total_eq _, ?_⟩
  intro h
  rw [totals_total_eq, h]
  simp

/-- C2 witness: concrete evaluation of the monthly total. -/
theorem totals_total_spec_witness :
    (totals (filteredExpenses (fun d => d) CategoryFilter.all "all" ""
        [])).total = 0 := by
  have h := totals_total_spec (fun d => d) CategoryFilter.all "all" "" []
  exact h.2 rfl

/-- C3: for every filter state, the average equals the sum of the
filtered amounts divided by the number of filtered expenses when that
number is positive, and equals 0 when the filtered list is empty. -/
theorem totals_average_spec (gmk : String → String) (cf : CategoryFilter)
    (mf st : String) (es : List Expense) :
    (0 < (filteredExpenses gmk cf mf st es).length →
      (totals (filteredExpenses gmk cf mf st es)).average =
        ((filteredExpenses gmk cf mf st es).map (fun e => e.amount)).sum /
          ((filteredExpenses gmk cf mf st es).length : ℚ)) ∧
    (filteredExpenses gmk cf mf st es = [] →
      (totals (filteredExpenses gmk cf mf st es)).average = 0) := by
  constructor
  · intro hpos
    show (if (filteredExpenses gmk cf mf st es).length = 0 then 0
        else (totals (filteredExpenses gmk cf mf st es)).total /
          ((filteredExpenses gmk cf mf st es).length : ℚ)) = _
    rw [if_neg (Nat.pos_iff_ne_zero.mp hpos), totals_total_eq]
  · intro h
    show (if (filteredExpenses gmk cf mf st es).length = 0 then 0
        else (totals (filteredExpenses gmk cf mf st es)).total /
          ((filteredExpenses gmk cf mf st es).length : ℚ)) = 0
    rw [h]
    simp

/-- C3 witness: the average over one concrete expense. -/
theorem totals_average_spec_witness :
    (totals (filteredExpenses (fun d => d) CategoryFilter.all "all" ""
        [{ id := "1", description := "coffee", amount := 3, category := "Food",
           paymentMethod := "Card", date := "2026-01-02", notes := none }])).average
      = 3 := by
  have h := (totals_average_spec (fun d => d) CategoryFilter.all "all" ""
    [{ id := "1", description := "coffee", amount := 3, category := "Food",
       paymentMethod := "Card", date := "2026-01-02", notes := none }]).1
  rw [h (by decide)]
  norm_num [filteredExpenses, matchesFilters]

/-- The step of the `reduce` that builds the per-category record:
`acc[expense.category] = (acc[expense.category] ?? 0) + expense.amount`. -/
def catStep (acc : List (String × ℚ)) (expense : Expense) : List (String × ℚ) :=
  objSet acc expense.category
    ((objGet acc expense.category).getD 0 + expense.amount)

theorem totals_categories_eq (filtered : List Expense) :
    (totals filtered).categories = filtered.foldl catStep [] := rfl

theorem objGet_objSet_self (m : List (String × ℚ)) (k : String) (v : ℚ) :
    objGet (objSet m k v) k = some v := by
  induction m with
  | nil => simp [objSet, objGet]
  | cons p ps ih =>
    by_cases h : p.1 = k
    · simp [objSet, h, objGet]
    · simp [objSet, h, objGet, ih]

theorem objGet_objSet_other (m : List (String × ℚ)) (k c : String) (v : ℚ)
    (hne : k ≠ c) : objGet (objSet m k v) c = objGet m c := by
  induction m with
  | nil => simp [objSet, objGet, hne]
  | cons p ps ih =>
    by_cases h : p.1 = k
    · have hpc : p.1 ≠ c := by rw [h]; exact hne
      simp [objSet, objGet, h, hne, hpc]
    · by_cases h2 : p.1 = c
      · simp [objSet, objGet, h, h2, Ne.symm hne]
      · simp [objSet, objGet, h, h2, ih]

theorem catSum_cons (e : Expense) (l : List Expense) (c : String) :
    catSum (e :: l) c =
      (if e.category = c then e.amount else 0) + catSum l c := by
  by_cases h : e.category = c
  · simp [catSum, h]
  · simp [catSum, h]

theorem foldl_catStep_lookup (l : List Expense) (acc : List (String × ℚ))
    (c : String) :
    (objGet (l.foldl catStep acc) c).getD 0 =
      (objGet acc c).getD 0 + catSum l c := by
  induction l generalizing acc with
  | nil => simp [catSum]
  | cons e rest ih =>
    rw [List.foldl_cons, ih, catSum_cons]
    by_cases h : e.category = c
    · subst h
      rw [catStep, objGet_objSet_self, if_pos rfl]
      simp only [Option.getD_some]
      ring
    · rw [catStep, objGet_objSet_other _ _ _ _ h, if_neg h]
      ring

/-- Sum of the values of a record, `Object.values(rec)` summed. -/
def valsSum (m : List (String × ℚ)) : ℚ :=
  (m.map (fun p => p.2)).sum

theorem valsSum_catStep (m : List (String × ℚ)) (e : Expense) :
    valsSum (catStep m e) = valsSum m + e.amount := by
  rw [catStep]
  induction m with
  | nil => simp [objGet, objSet, valsSum]
  | cons p ps ih =>
    by_cases h : p.1 = e.category
    · have hget : objGet (p :: ps) e.category = some p.2 := by
        simp [objGet, h]
      have hset : objSet (p :: ps) e.category
          ((objGet (p :: ps) e.category).getD 0 + e.amount) =
          (e.category, p.2 + e.amount) :: ps := by
        simp [objSet, objGet, h]
      rw [hset]
      simp only [valsSum, List.map_cons, List.sum_cons]
      ring
    · have hget : objGet (p :: ps) e.category = objGet ps e.category := by
        simp [objGet, h]
      have hset : objSet (p :: ps) e.category
          ((objGet (p :: ps) e.category).getD 0 + e.amount) =
          p :: objSet ps e.category ((objGet ps e.category).getD 0 + e.amount) := by
        simp [objSet, objGet, h]
      rw [hset]
      simp only [valsSum, List.map_cons, List.sum_cons] at ih ⊢
      rw [ih]
      ring

theorem foldl_catStep_valsSum (l : List Expense) (acc : List (String × ℚ)) :
    valsSum (l.foldl catStep acc) =
      valsSum acc + (l.map (fun e => e.amount)).sum := by
  induction l generalizing acc with
  | nil => simp
  | cons e rest ih =>
    rw [List.foldl_cons, ih, valsSum_catStep]
    simp only [List.map_cons, List.sum_cons]
    ring

/-- C4: the per-category breakdown is the group-by of the filtered
expenses: reading any category from the record (with 0 for a missing
key, as the insight bars do) yields the sum of the filtered amounts of
that category, and the values of the record sum to the monthly total. -/
theorem totals_categories_spec (gmk : String → String) (cf : CategoryFilter)
    (mf st : String) (es : List Expense) :
    (∀ c : String,
      (objGet (totals (filteredExpenses gmk cf mf st es)).categories c).getD 0 =
        catSum (filteredExpenses gmk cf mf st es) c) ∧
    valsSum (totals (filteredExpenses gmk cf mf st es)).categories =
      (totals (filteredExpenses gmk cf mf st es)).total := by
  constructor
  · intro c
    rw [totals_categories_eq, foldl_catStep_lookup]
    simp [objGet]
  · rw [totals_categories_eq, foldl_catStep_valsSum, totals_total_eq]
    simp [valsSum]

/-- The keys of a record, in `Object.entries` order. -/
def objKeys (m : List (String × ℚ)) : List String :=
  m.map (fun p => p.1)

theorem objGet_mem (m : List (String × ℚ)) (c : String) (v : ℚ)
    (h : objGet m c = some v) : (c, v) ∈ m := by
  induction m with
  | nil => simp [objGet] at h
  | cons q qs ih =>
    by_cases hq : q.1 = c
    · rw [objGet, if_pos hq] at h
      subst hq
      have hv := Option.some_inj.mp h
      subst hv
      simp
    · rw [objGet, if_neg hq] at h
      exact List.mem_cons_of_mem _ (ih h)

theorem objGet_isSome_of_mem_keys (m : List (String × ℚ)) (c : String)
    (h : c ∈ objKeys m) : ∃ v, objGet m c = some v := by
  induction m with
  | nil => simp [objKeys] at h
  | cons q qs ih =>
    by_cases hq : q.1 = c
    · exact ⟨q.2, by rw [objGet, if_pos hq]⟩
    · rw [objGet, if_neg hq]
      refine ih ?_
      rcases List.mem_cons.mp h with h1 | h1
      · exact absurd h1.symm hq
      · exact h1

theorem objGet_of_nodup (m : List (String × ℚ)) (p : String × ℚ)
    (hmem : p ∈ m) (hnd : (objKeys m).Nodup) : objGet m p.1 = some p.2 := by
  induction m with
  | nil => simp at hmem
  | cons q qs ih =>
    rcases List.mem_cons.mp hmem with rfl | hmem'
    · rw [objGet, if_pos rfl]
    · have hq : q.1 ≠ p.1 := by
        intro hEq
        have : p.1 ∈ objKeys qs := List.mem_map_of_mem _ hmem'
        rw [objKeys, List.map_cons, List.nodup_cons] at hnd
        exact hnd.1 (hEq ▸ this)
      rw [objGet, if_neg hq]
      exact ih hmem' ((List.nodup_cons.mp hnd).2)

theorem objKeys_objSet (m : List (String × ℚ)) (k : String) (v : ℚ) :
    objKeys (objSet m k v) =
      if k ∈ objKeys m then objKeys m else objKeys m ++ [k] := by
  induction m with
  | nil => simp [objSet, objKeys]
  | cons q qs ih =>
    by_cases hq : q.1 = k
    · simp [objSet, objKeys, hq]
    · simp only [objSet, if_neg hq, objKeys, List.map_cons]
      simp only [objKeys] at ih
      by_cases hk : k ∈ qs.map (fun p => p.1)
      · rw [if_pos (List.mem_cons_of_mem _ hk), ih, if_pos hk]
      · have hnmem : k ∉ q.1 :: qs.map (fun p => p.1) := by
          intro hmem
          rcases List.mem_cons.mp hmem with h1 | h1
          · exact hq h1.symm
          · exact hk h1
        rw [if_neg hnmem, ih, if_neg hk, List.cons_append]

theorem nodup_objKeys_objSet (m : List (String × ℚ)) (k : String) (v : ℚ)
    (hnd : (objKeys m).Nodup) : (objKeys (objSet m k v)).Nodup := by
  rw [objKeys_objSet]
  by_cases hk : k ∈ objKeys m
  · rwa [if_pos hk]
  · rw [if_neg hk, List.nodup_append]
    refine ⟨hnd, List.nodup_singleton _, ?_⟩
    intro a ha hak
    rw [List.mem_singleton] at hak
    exact hk (hak ▸ ha)

theorem mem_objKeys_objSet (m : List (String × ℚ)) (k c : String) (v : ℚ) :
    c ∈ objKeys (objSet m k v) ↔ c ∈ objKeys m ∨ c = k := by
  rw [objKeys_objSet]
  by_cases hk : k ∈ objKeys m
  · rw [if_pos hk]
    constructor
    · exact Or.inl
    · rintro (h | rfl)
      · exact h
      · exact hk
  · rw [if_neg hk]
    simp

theorem mem_objKeys_foldl_catStep (l : List Expense) (acc : List (String × ℚ))
    (c : String) :
    c ∈ objKeys (l.foldl catStep acc) ↔
      c ∈ objKeys acc ∨ c ∈ l.map (fun e => e.category) := by
  induction l generalizing acc with
  | nil => simp
  | cons e rest ih =>
    rw [List.foldl_cons, ih, catStep, mem_objKeys_objSet]
    simp only [List.map_cons, List.mem_cons]
    tauto

theorem nodup_objKeys_foldl_catStep (l : List Expense)
    (acc : List (String × ℚ)) (hnd : (objKeys acc).Nodup) :
    (objKeys (l.foldl catStep acc)).Nodup := by
  induction l generalizing acc with
  | nil => exact hnd
  | cons e rest ih =>
    rw [List.foldl_cons]
    exact ih _ (nodup_objKeys_objSet _ _ _ hnd)

theorem mem_insertDesc (x z : String × ℚ) (l : List (String × ℚ)) :
    z ∈ insertDesc x l ↔ z = x ∨ z ∈ l := by
  induction l with
  | nil => simp [insertDesc]
  | cons y ys ih =>
    by_cases h : y.2 < x.2
    · simp [insertDesc, h]
    · simp only [insertDesc, if_neg h, List.mem_cons, ih]
      tauto

theorem mem_sortByValueDesc_aux (l acc : List (String × ℚ)) (z : String × ℚ) :
    z ∈ l.foldl (fun acc x => insertDesc x acc) acc ↔ z ∈ acc ∨ z ∈ l := by
  induction l generalizing acc with
  | nil => simp
  | cons y ys ih =>
    rw [List.foldl_cons, ih, mem_insertDesc]
    simp only [List.mem_cons]
    tauto

theorem mem_sortByValueDesc (l : List (String × ℚ)) (z : String × ℚ) :
    z ∈ sortByValueDesc l ↔ z ∈ l := by
  rw [sortByValueDesc, mem_sortByValueDesc_aux]
  simp

theorem pairwise_insertDesc (x : String × ℚ) (l : List (String × ℚ))
    (hp : l.Pairwise (fun a b => b.2 ≤ a.2)) :
    (insertDesc x l).Pairwise (fun a b => b.2 ≤ a.2) := by
  induction l with
  | nil => simp [insertDesc]
  | cons y ys ih =>
    rw [List.pairwise_cons] at hp
    by_cases h : y.2 < x.2
    · rw [insertDesc, if_pos h, List.pairwise_cons]
      refine ⟨?_, List.pairwise_cons.mpr hp⟩
      intro z hz
      rcases List.mem_cons.mp hz with rfl | hz'
      · exact le_of_lt h
      · exact le_trans (hp.1 z hz') (le_of_lt h)
    · rw [insertDesc, if_neg h, List.pairwise_cons]
      refine ⟨?_, ih hp.2⟩
      intro z hz
      rcases (mem_insertDesc x z ys).mp hz with rfl | hz'
      · exact le_of_not_lt h
      · exact hp.1 z hz'

theorem pairwise_sortByValueDesc_aux (l acc : List (String × ℚ))
    (hp : acc.Pairwise (fun a b => b.2 ≤ a.2)) :
    (l.foldl (fun acc x => insertDesc x acc) acc).Pairwise
      (fun a b => b.2 ≤ a.2) := by
  induction l generalizing acc with
  | nil => exact hp
  | cons y ys ih =>
    rw [List.foldl_cons]
    exact ih _ (pairwise_insertDesc y acc hp)

theorem pairwise_sortByValueDesc (l : List (String × ℚ)) :
    (sortByValueDesc l).Pairwise (fun a b => b.2 ≤ a.2) :=
  pairwise_sortByValueDesc_aux l [] (List.Pairwise.nil)

theorem sortByValueDesc_ne_nil (l : List (String × ℚ)) (hne : l ≠ []) :
    sortByValueDesc l ≠ [] := by
  rcases List.exists_mem_of_ne_nil l hne with ⟨z, hz⟩
  intro hcontra
  have := (mem_sortByValueDesc l z).mpr hz
  rw [hcontra] at this
  simp at this

/-- C5: when the filtered list is non-empty, the top-category summary is
an entry `(c, v)` where `c` is a category occurring in the filtered
list, `v` is the summed amount of that category, and `v` is maximal
among the summed amounts of all categories occurring in the filtered
list; when the filtered list is empty the summary is `none`. -/
theorem totals_topCategory_spec (gmk : String → String) (cf : CategoryFilter)
    (mf st : String) (es : List Expense) :
    (filteredExpenses gmk cf mf st es = [] →
      (totals (filteredExpenses gmk cf mf st es)).topCategory = none) ∧
    (filteredExpenses gmk cf mf st es ≠ [] →
      ∃ c v, (totals (filteredExpenses gmk cf mf st es)).topCategory =
          some (c, v) ∧
        c ∈ (filteredExpenses gmk cf mf st es).map (fun e => e.category) ∧
        v = catSum (filteredExpenses gmk cf mf st es) c ∧
        ∀ c' ∈ (filteredExpenses gmk cf mf st es).map (fun e => e.category),
          catSum (filteredExpenses gmk cf mf st es) c' ≤ v) := by
  set f := filteredExpenses gmk cf mf st es with hf
  constructor
  · intro h
    show (sortByValueDesc (f.foldl catStep [])).head? = none
    rw [h]
    rfl
  · intro hne
    set m := f.foldl catStep [] with hm
    have hnd : (objKeys m).Nodup := nodup_objKeys_foldl_catStep f [] (by simp [objKeys])
    have hkeys : ∀ c, c ∈ objKeys m ↔ c ∈ f.map (fun e => e.category) := by
      intro c
      rw [hm, mem_objKeys_foldl_catStep]
      simp [objKeys]
    have hlook : ∀ c, (objGet m c).getD 0 = catSum f c := by
      intro c
      rw [hm, foldl_catStep_lookup]
      simp [objGet, catSum]
    have hmne : m ≠ [] := by
      rcases List.exists_mem_of_ne_nil f hne with ⟨e, he⟩
      have hkey : e.category ∈ objKeys m :=
        (hkeys e.category).mpr (List.mem_map_of_mem _ he)
      intro hcontra
      rw [hcontra] at hkey
      simp [objKeys] at hkey
    have hsne : sortByValueDesc m ≠ [] := sortByValueDesc_ne_nil m hmne
    rcases List.exists_cons_of_ne_nil hsne with ⟨h0, t0, hsort⟩
    have hhead : (totals f).topCategory = some h0 := by
      show (sortByValueDesc (f.foldl catStep [])).head? = some h0
      rw [← hm, hsort]
      rfl
    have hh0mem : h0 ∈ m := (mem_sortByValueDesc m h0).mp (hsort ▸ List.mem_cons_self h0 t0)
    have hh0key : h0.1 ∈ objKeys m := List.mem_map_of_mem _ hh0mem
    have hh0get : objGet m h0.1 = some h0.2 := objGet_of_nodup m h0 hh0mem hnd
    have hh0val : h0.2 = catSum f h0.1 := by
      have := hlook h0.1
      rw [hh0get] at this
      simpa using this
    refine ⟨h0.1, h0.2, hhead, (hkeys h0.1).mp hh0key, hh0val, ?_⟩
    intro c' hc'
    have hc'key : c' ∈ objKeys m := (hkeys c').mpr hc'
    rcases objGet_isSome_of_mem_keys m c' hc'key with ⟨v', hv'⟩
    have hv'val : v' = catSum f c' := by
      have := hlook c'
      rw [hv'] at this
      simpa using this
    have hentry : (c', v') ∈ m := objGet_mem m c' v' hv'
    have hsortmem : (c', v') ∈ sortByValueDesc m :=
      (mem_sortByValueDesc m _).mpr hentry
    rw [hsort] at hsortmem
    have hpair := pairwise_sortByValueDesc m
    rw [hsort, List.pairwise_cons] at hpair
    rcases List.mem_cons.mp hsortmem with hEq | hmem'
    · rw [← hv'val, ← hEq]
    · have := hpair.1 _ hmem'
      rw [← hv'val]
      simpa using this

/-- C5 witness: with two concrete expenses the top category is the one
with the larger summed amount. -/
theorem totals_topCategory_spec_witness :
    (totals (filteredExpenses (fun d => d) CategoryFilter.all "all" ""
        [{ id := "1", description := "coffee", amount := 3, category := "Food",
           paymentMethod := "Card", date := "2026-01-02", notes := none },
         { id := "2", description := "bus", amount := 7, category := "Transport",
           paymentMethod := "Cash", date := "2026-01-03", notes := none }])).topCategory
      = some ("Transport", 7) := by
  have h := (totals_topCategory_spec (fun d => d) CategoryFilter.all "all" ""
    [{ id := "1", description := "coffee", amount := 3, category := "Food",
       paymentMethod := "Card", date := "2026-01-02", notes := none },
     { id := "2", description := "bus", amount := 7, category := "Transport",
       paymentMethod := "Cash", date := "2026-01-03", notes := none }]).2
    (by decide)
  rcases h with ⟨c, v, hEq, hmem, hval, hmax⟩
  have hfood : catSum (filteredExpenses (fun d => d) CategoryFilter.all "all" ""
      [{ id := "1", description := "coffee", amount := 3, category := "Food",
         paymentMethod := "Card", date := "2026-01-02", notes := none },
       { id := "2", description := "bus", amount := 7, category := "Transport",
         paymentMethod := "Cash", date := "2026-01-03", notes := none }]) "Food" = 3 := by
    norm_num +decide [catSum, filteredExpenses, matchesFilters]
  have htrans : catSum (filteredExpenses (fun d => d) CategoryFilter.all "all" ""
      [{ id := "1", description := "coffee", amount := 3, category := "Food",
         paymentMethod := "Card", date := "2026-01-02", notes := none },
       { id := "2", description := "bus", amount := 7, category := "Transport",
         paymentMethod := "Cash", date := "2026-01-03", notes := none }]) "Transport" = 7 := by
    norm_num +decide [catSum, filteredExpenses, matchesFilters]
  have hmem' : c = "Food" ∨ c = "Transport" := by
    simpa [filteredExpenses, matchesFilters] using hmem
  have h7 : (7 : ℚ) ≤ v := by
    have := hmax "Transport" (by simp [filteredExpenses, matchesFilters])
    rwa [htrans] at this
  rcases hmem' with rfl | rfl
  · rw [hfood] at hval
    exact absurd (hval ▸ h7) (by norm_num)
  · rw [htrans] at hval
    rw [hEq, hval]

/-- The `ExpenseFormState` interface of `layout.tsx` (lines 44–51). -/
structure ExpenseFormState where
  description : String
  amount : String
  category : String
  paymentMethod : String
  date : String
  notes : String
deriving DecidableEq, Repr

/-- `defaultFormState` of `layout.tsx` (lines 56–63), parametrised by
`todayIso` (derived from the current date at module load). -/
def defaultFormState (todayIso : String) : ExpenseFormState :=
  { description := "", amount := "", category := "Food",
    paymentMethod := "Card", date := todayIso, notes := "" }

/-- Model of `Number(amount.toFixed(2))`: round to the nearest multiple
of 1/100, half away from zero for the positive amounts the handler
accepts (`toFixed` picks the larger candidate on ties). -/
def round2 (q : ℚ) : ℚ :=
  ((⌊q * 100 + 1 / 2⌋ : ℤ) : ℚ) / 100

/-- The object literal passed to `addExpense` in `handleSubmit`
(lines 137–144): exactly the six data-bearing fields taken from the
form (the store, not the form, supplies the `id`). -/
structure NewExpense where
  description : String
  amount : ℚ
  category : String
  paymentMethod : String
  date : String
  notes : Option String
deriving DecidableEq, Repr

/-- The accept/reject decision and payload of `handleSubmit`
(lines 129–150): `Number.parseFloat(form.amount)` is modelled by
`parseAmount` (`none` for `NaN`); the submission is rejected when the
trimmed description is empty, the amount is `NaN`, or the amount is not
positive, and otherwise the `addExpense` payload is built from the
form. -/
def submitResult (parseAmount : String → Option ℚ)
    (form : ExpenseFormState) : Option NewExpense :=
  match parseAmount form.amount with
  | none => none
  | some amount =>
    if jsTrim form.description = "" then none
    else if amount ≤ 0 then none
    else some
      { description := jsTrim form.description,
        amount := round2 amount,
        category := form.category,
        paymentMethod := form.paymentMethod,
        date := form.date,
        notes := if jsTrim form.notes = "" then none else some (jsTrim form.notes) }

/-- Modelled from the spec: the state of `useExpenseStore`
(`lib/expense-store`, not under the sources) — "a local reactive store
wrapping browser storage".  `expenses` is the in-memory list, `storage`
the browser-local storage slot the store mirrors it to (`none` when the
slot was never written; serialisation is the identity on the list). -/
structure StoreState where
  expenses : List NewExpense
  storage : Option (List NewExpense)
deriving DecidableEq, Repr

/-- Modelled from the spec: `addExpense` of the store ("persists them in
browser-local storage") appends the recorded expense to the list and
writes the new list to browser-local storage. -/
def addExpense (st : StoreState) (e : NewExpense) : StoreState :=
  { expenses := st.expenses ++ [e], storage := some (st.expenses ++ [e]) }

/-- Modelled from the spec: re-reading the store in a later session
initialises the expense list from browser-local storage (empty when the
slot was never written). -/
def loadStore (storage : Option (List NewExpense)) : StoreState :=
  { expenses := storage.getD [], storage := storage }

/-- `handleSubmit` (lines 129–150) acting on the store state and the
form state: a rejected submission returns without calling `addExpense`
or `setForm`; an accepted one calls `addExpense` with the payload and
resets the form to the defaults, keeping the chosen date. -/
def handleSubmit (parseAmount : String → Option ℚ) (todayIso : String)
    (form : ExpenseFormState) (st : StoreState) :
    StoreState × ExpenseFormState :=
  match submitResult parseAmount form with
  | none => (st, form)
  | some e =>
    (addExpense st e, { defaultFormState todayIso with date := form.date })

theorem submitResult_accepted (parseAmount : String → Option ℚ)
    (form : ExpenseFormState) (a : ℚ)
    (hparse : parseAmount form.amount = some a)
    (hdesc : jsTrim form.description ≠ "") (hpos : 0 < a) :
    submitResult parseAmount form = some
      { description := jsTrim form.description,
        amount := round2 a,
        category := form.category,
        paymentMethod := form.paymentMethod,
        date := form.date,
        notes := if jsTrim form.notes = "" then none
                 else some (jsTrim form.notes) } := by
  simp only [submitResult, hparse]
  rw [if_neg hdesc, if_neg (not_le.mpr hpos)]

/-- C6: an accepted submission calls `addExpense` with exactly the six
user-supplied fields: the trimmed description, the (parsed, rounded)
amount, the form's category, payment method and date, and the trimmed
notes (absent when empty); `NewExpense` has no further fields. -/
theorem handleSubmit_fields (parseAmount : String → Option ℚ)
    (form : ExpenseFormState) (a : ℚ)
    (hparse : parseAmount form.amount = some a)
    (hdesc : jsTrim form.description ≠ "") (hpos : 0 < a) :
    submitResult parseAmount form = some
      { description := jsTrim form.description,
        amount := round2 a,
        category := form.category,
        paymentMethod := form.paymentMethod,
        date := form.date,
        notes := if jsTrim form.notes = "" then none
                 else some (jsTrim form.notes) } :=
  submitResult_accepted parseAmount form a hparse hdesc hpos

/-- C6 witness: a concrete accepted submission produces exactly the
six-field payload. -/
theorem handleSubmit_fields_witness :
    submitResult (fun _ => some 5)
      { description := " Lunch ", amount := "5", category := "Food",
        paymentMethod := "Card", date := "2026-01-05", notes := "with team" } =
      some { description := "Lunch", amount := 5, category := "Food",
             paymentMethod := "Card", date := "2026-01-05",
             notes := some "with team" } := by
  rw [handleSubmit_fields (fun _ => some 5)
    { description := " Lunch ", amount := "5", category := "Food",
      paymentMethod := "Card", date := "2026-01-05", notes := "with team" }
    5 rfl (by decide) (by norm_num)]
  have h1 : jsTrim " Lunch " = "Lunch" := by decide
  have h2 : jsTrim "with team" = "with team" := by decide
  have h3 : round2 5 = 5 := by
    rw [round2]
    norm_num
  rw [h1, h2, h3]
  simp

/-- C7: every recorded expense is persisted: after `addExpense` the
expense is in the in-memory list, browser-local storage holds exactly
that list, and the expense is still there when the store is re-read
from storage in a later session. -/
theorem addExpense_persists (st : StoreState) (e : NewExpense) :
    e ∈ (addExpense st e).expenses ∧
    (addExpense st e).storage = some (addExpense st e).expenses ∧
    e ∈ (loadStore (addExpense st e).storage).expenses := by
  refine ⟨?_, rfl, ?_⟩
  · simp [addExpense]
  · simp [addExpense, loadStore]

/-- C8: a submission whose description trims to empty, whose amount does
not parse, or whose parsed amount is not positive adds no expense and
leaves the expense list and the form state unchanged. -/
theorem handleSubmit_rejects (parseAmount : String → Option ℚ)
    (todayIso : String) (form : ExpenseFormState) (st : StoreState)
    (h : jsTrim form.description = "" ∨ parseAmount form.amount = none ∨
      ∃ a, parseAmount form.amount = some a ∧ a ≤ 0) :
    handleSubmit parseAmount todayIso form st = (st, form) := by
  have hnone : submitResult parseAmount form = none := by
    rcases h with hd | hn | ⟨a, ha, hle⟩
    · cases hp : parseAmount form.amount with
      | none => simp only [submitResult, hp]
      | some a => simp only [submitResult, hp, if_pos hd]
    · simp only [submitResult, hn]
    · simp only [submitResult, ha]
      by_cases hd : jsTrim form.description = ""
      · rw [if_pos hd]
      · rw [if_neg hd, if_pos hle]
  simp only [handleSubmit, hnone]

/-- C8 witness: an all-empty form is rejected and nothing changes. -/
theorem handleSubmit_rejects_witness :
    handleSubmit (fun _ => none) "2026-01-05"
      { description := "", amount := "", category := "Food",
        paymentMethod := "Card", date := "2026-01-05", notes := "" }
      { expenses := [], storage := none } =
      ({ expenses := [], storage := none },
       { description := "", amount := "", category := "Food",
         paymentMethod := "Card", date := "2026-01-05", notes := "" }) :=
  handleSubmit_rejects (fun _ => none) "2026-01-05"
    { description := "", amount := "", category := "Food",
      paymentMethod := "Card", date := "2026-01-05", notes := "" }
    { expenses := [], storage := none }
    (Or.inl (by decide))

theorem round2_mul_int (a : ℚ) : round2 a * 100 = ((⌊a * 100 + 1 / 2⌋ : ℤ) : ℚ) := by
  rw [round2]
  field_simp

theorem round2_close (a : ℚ) : |a - round2 a| ≤ 1 / 200 := by
  have h1 := Int.floor_le (a * 100 + 1 / 2)
  have h2 := Int.lt_floor_add_one (a * 100 + 1 / 2)
  rw [round2, abs_le]
  constructor
  · have : ((⌊a * 100 + 1 / 2⌋ : ℤ) : ℚ) ≤ a * 100 + 1 / 2 := h1
    nlinarith
  · have : a * 100 + 1 / 2 < ((⌊a * 100 + 1 / 2⌋ : ℤ) : ℚ) + 1 := h2
    nlinarith

/-- C9: the stored amount of an accepted submission is the parsed
positive amount rounded to two decimal places (an integer number of
hundredths within half a hundredth of the parsed value), the stored
description is the trimmed input description, and notes that trim to
empty are stored as absent. -/
theorem handleSubmit_normalizes (parseAmount : String → Option ℚ)
    (form : ExpenseFormState) (a : ℚ)
    (hparse : parseAmount form.amount = some a)
    (hdesc : jsTrim form.description ≠ "") (hpos : 0 < a) :
    ∃ e, submitResult parseAmount form = some e ∧
      e.amount = round2 a ∧
      (∃ n : ℤ, e.amount * 100 = (n : ℚ)) ∧
      |a - e.amount| ≤ 1 / 200 ∧
      e.description = jsTrim form.description ∧
      (jsTrim form.notes = "" → e.notes = none) ∧
      (jsTrim form.notes ≠ "" → e.notes = some (jsTrim form.notes)) := by
  refine ⟨_, submitResult_accepted parseAmount form a hparse hdesc hpos,
    rfl, ⟨⌊a * 100 + 1 / 2⌋, round2_mul_int a⟩, round2_close a, rfl, ?_, ?_⟩
  · intro h
    simp [h]
  · intro h
    simp [h]

/-- C9 witness: a concrete accepted submission with notes trimming to
empty stores rounded amount 2.35 and no notes. -/
theorem handleSubmit_normalizes_witness :
    ∃ e, submitResult (fun _ => some (2349/1000))
        { description := "Tea", amount := "2.349", category := "Food",
          paymentMethod := "Card", date := "2026-01-05", notes := " " } =
        some e ∧ e.amount = 47 / 20 ∧ e.description = "Tea" ∧
        e.notes = none := by
  rcases handleSubmit_normalizes (fun _ => some (2349/1000))
      { description := "Tea", amount := "2.349", category := "Food",
        paymentMethod := "Card", date := "2026-01-05", notes := " " }
      (2349/1000) rfl (by decide) (by norm_num) with
    ⟨e, hsome, hamt, _, _, hdescr, hnotes, _⟩
  refine ⟨e, hsome, ?_, ?_, ?_⟩
  · rw [hamt, round2]
    norm_num
  · rw [hdescr]
    decide
  · exact hnotes (by decide)

/-- C10: the recent-activity table shows the first 6 entries of the
filtered list in order; it never shows more than 6 rows, and every
shown row belongs to the filtered list. -/
theorem recentExpenses_spec (gmk : String → String) (cf : CategoryFilter)
    (mf st : String) (es : List Expense) :
    recentExpenses (filteredExpenses gmk cf mf st es) =
      (filteredExpenses gmk cf mf st es).take 6 ∧
    (recentExpenses (filteredExpenses gmk cf mf st es)).length ≤ 6 ∧
    ∀ e ∈ recentExpenses (filteredExpenses gmk cf mf st es),
      e ∈ filteredExpenses gmk cf mf st es := by
  refine ⟨rfl, ?_, ?_⟩
  · rw [recentExpenses, List.length_take]
    exact min_le_left _ _
  · intro e he
    exact (List.take_sublist 6 _).mem he

/-- C10 witness: a concrete shown row is in the filtered list. -/
theorem recentExpenses_spec_witness :
    ({ id := "1", description := "coffee", amount := 3, category := "Food",
       paymentMethod := "Card", date := "2026-01-02", notes := none } : Expense) ∈
      filteredExpenses (fun d => d) CategoryFilter.all "all" ""
        [{ id := "1", description := "coffee", amount := 3, category := "Food",
           paymentMethod := "Card", date := "2026-01-02", notes := none }] :=
  (recentExpenses_spec (fun d => d) CategoryFilter.all "all" ""
    [{ id := "1", description := "coffee", amount := 3, category := "Food",
       paymentMethod := "Card", date := "2026-01-02", notes := none }]).2.2
    _ (by decide)
